import Mathlib

/-!
Verification of the rule-record data model, canonical codec, identity
function, filter matcher and store operations of the casbin-pg-adapter
policy-storage layer (adapter.go).

Modelling conventions:
* The relational store is a list of `CasbinRule` rows; `ID` is the primary
  key (the go-pg convention for a field named `ID`).
* The meow checksum rendered as hex (`fmt.Sprintf("%x", meow.Checksum(0, data))`)
  is an external library; it is modelled as an arbitrary hash parameter
  `h : String → String` applied to the joined content string, so every
  statement about identities separates what the join determines from what
  the hash determines.
* go-pg / PostgreSQL statement execution is modelled with explicit state
  passing: a transaction works on a pending table; an error before `Commit`
  leaves the caller-visible table at its pre-transaction contents (the
  deferred `tx.Close()` rolls back an uncommitted transaction).  A
  `StorageOracle` says which statements of a transaction fail, so theorems
  quantify over all failure patterns.
* `INSERT ... ON CONFLICT DO NOTHING` on the primary key is a no-op when a
  row with the same `ID` exists.  `UPDATE ... WHERE ...` (go-pg
  `Query.Update` without `Returning`) sets the data columns of every
  matching row, reports the affected count, and is not an error when zero
  rows match — the same execution path that makes the adapter's
  duplicate-tolerant inserts error-free.
* The policy engine's line decoder (`persist.LoadPolicyLine`) is owned by
  the engine, not this repository; where a claim depends on it, it is
  modelled from the spec (separator-joined tokens, first token the rule
  type) and marked as such.
-/

namespace PgAdapter

/-- Mirrors the Go struct `CasbinRule`: primary-key `ID`, rule-type
discriminator `Ptype`, six left-aligned string field slots `V0`..`V5`. -/
structure CasbinRule where
  ID : String
  Ptype : String
  V0 : String
  V1 : String
  V2 : String
  V3 : String
  V4 : String
  V5 : String
deriving Repr, DecidableEq

/-- The `values` array `[]string{r.V0, ..., r.V5}` built by `String`,
`queryString` and `toStringPolicy`. -/
def CasbinRule.values (r : CasbinRule) : List String :=
  [r.V0, r.V1, r.V2, r.V3, r.V4, r.V5]

/-- The visible content of a row: everything except the primary key. -/
def CasbinRule.content (r : CasbinRule) : String × List String :=
  (r.Ptype, r.values)

/-- Go `strings.Join(elems, ",")`, as used by `policyID`. -/
def joinComma : List String → String
  | [] => ""
  | s :: rest =>
    match rest with
    | [] => s
    | _ :: _ => s ++ "," ++ joinComma rest

/-- The content string hashed by `policyID`:
`strings.Join(append([]string{ptype}, rule...), ",")`. -/
def policyIDData (ptype : String) (rule : List String) : String :=
  joinComma (ptype :: rule)

/-- `policyID`: the meow checksum rendered as hex is modelled as an
arbitrary hash `h` of the joined content string. -/
def policyID (h : String → String) (ptype : String) (rule : List String) : String :=
  h (policyIDData ptype rule)

/-- A concrete stand-in hash used to instantiate `h` in closed statements. -/
def idHash : String → String := fun s => s

/-- `savePolicyLine`: the record keeps the first six entries of the tuple
(`if l > i { line.Vi = rule[i] }`, other slots stay at the zero value `""`),
while the identity is computed over the whole tuple. -/
def savePolicyLine (h : String → String) (ptype : String) (rule : List String) : CasbinRule :=
  { ID := policyID h ptype rule
    Ptype := ptype
    V0 := rule.getD 0 ""
    V1 := rule.getD 1 ""
    V2 := rule.getD 2 ""
    V3 := rule.getD 3 ""
    V4 := rule.getD 4 ""
    V5 := rule.getD 5 "" }

/-- Index of the last non-empty entry (the `lastIndex` downward scan of
`String`, `queryString` and `toStringPolicy`; `none` plays the role of the
`-1` sentinel). -/
def lastNonEmptyIndex : List String → Option Nat
  | [] => none
  | v :: vs =>
    match lastNonEmptyIndex vs with
    | some i => some (i + 1)
    | none => if v = "" then none else some 0

/-- The slots a record emits: indices `0 .. lastIndex` of the values array
(`for i := 0; i <= lastIndex; i++`). -/
def includedValues (vs : List String) : List String :=
  match lastNonEmptyIndex vs with
  | none => []
  | some k => vs.take (k + 1)

/-- Each emitted value preceded by the separator `", "` (the
`sb.WriteString(prefixLine); sb.WriteString(values[i])` loop). -/
def sepJoin : List String → String
  | [] => ""
  | v :: vs => ", " ++ v ++ sepJoin vs

/-- `CasbinRule.String`: the rule type followed by every value up to and
including the last non-empty one, each preceded by `", "`. -/
def CasbinRule.string (r : CasbinRule) : String :=
  r.Ptype ++ sepJoin (includedValues r.values)

/-- `toStringPolicy`: the rule type (when non-empty) followed by the values
up to and including the last non-empty one. -/
def CasbinRule.toStringPolicy (r : CasbinRule) : List String :=
  (if r.Ptype = "" then [] else [r.Ptype]) ++ includedValues r.values

/-- `queryString` as the list of field-slot equality constraints it renders:
`ptype = ?` plus `vi = values[i]` for every `i ≤ lastIndex`. -/
def CasbinRule.queryConstraints (c : CasbinRule) : List (Nat × String) :=
  match lastNonEmptyIndex c.values with
  | none => []
  | some k => (List.range (k + 1)).map (fun i => (i, c.values.getD i ""))

/-- Evaluate a list of `(slot, value)` equality constraints on a row. -/
def matchesConstraints (cs : List (Nat × String)) (r : CasbinRule) : Bool :=
  cs.all (fun p => r.values.getD p.1 "" == p.2)

/-- A row satisfies the `WHERE` clause rendered by `c.queryString()`. -/
def CasbinRule.matchesQuery (c r : CasbinRule) : Bool :=
  r.Ptype == c.Ptype && matchesConstraints c.queryConstraints r

/-- Specification-side description of the emitted slots: drop the fully
empty tail, keep embedded empty values. -/
def dropTrailingEmpties : List String → List String
  | [] => []
  | v :: vs =>
    match dropTrailingEmpties vs with
    | [] => if v = "" then [] else [v]
    | w :: ws => v :: w :: ws

/-- Split a character list at every comma, accumulating the current token. -/
def splitCommaAux : List Char → List Char → List (List Char)
  | [], acc => [acc]
  | c :: rest, acc =>
    if c = ',' then acc :: splitCommaAux rest []
    else splitCommaAux rest (acc ++ [c])

/-- Drop the single leading space the codec writes after each comma. -/
def dropOneSpace : List Char → List Char
  | ' ' :: cs => cs
  | cs => cs

/-- Modelled from the spec: the policy engine's line decoder
(`persist.LoadPolicyLine`, owned by the engine and absent from this
repository) parses the emitted line into comma-separated tokens, dropping
the space the codec writes after each comma; the first token is the rule
type. -/
def parseLine (line : String) : List String :=
  match splitCommaAux line.data [] with
  | [] => []
  | t0 :: rest => String.mk t0 :: rest.map (fun cs => String.mk (dropOneSpace cs))

/-- The tuple the engine recovers from a stored tuple: encode to a record,
render the line, parse it, and drop the leading rule-type token. -/
def roundTrip (h : String → String) (ptype : String) (rule : List String) : List String :=
  (parseLine (savePolicyLine h ptype rule).string).drop 1

/-- Whether a character list contains a comma (the `policyID` join
separator). -/
def commaFree (cs : List Char) : Bool :=
  cs.all (fun c => c != ',')

/-- The characters `"," ++ cs` contributed by each tail element of a
comma-join. -/
def commaTail : List (List Char) → List Char
  | [] => []
  | cs :: rest => ',' :: (cs ++ commaTail rest)

/-- The characters `", " ++ cs` contributed by each tail element of the
codec's separator join. -/
def sepCharTail : List (List Char) → List Char
  | [] => []
  | cs :: rest => ',' :: ' ' :: (cs ++ sepCharTail rest)

/-- One row per tuple with identity-based deduplication:
`INSERT ... ON CONFLICT DO NOTHING` keyed on the primary key `ID`. -/
def insertLine (t : List CasbinRule) (line : CasbinRule) : List CasbinRule :=
  if t.any (fun r => r.ID == line.ID) then t else t ++ [line]

/-- `AddPolicy`: encode the tuple and insert it with conflict-do-nothing. -/
def addPolicy (h : String → String) (ptype : String) (rule : List String)
    (t : List CasbinRule) : List CasbinRule :=
  insertLine t (savePolicyLine h ptype rule)

/-- Which statements of a transaction fail: `Begin`, the `i`-th statement
inside the transaction, or `Commit`. -/
structure StorageOracle where
  beginFails : Bool
  stepFails : Nat → Bool
  commitFails : Bool

/-- The all-success oracle. -/
def allOk : StorageOracle :=
  { beginFails := false, stepFails := fun _ => false, commitFails := false }

/-- The insert loop of `SavePolicy`, acting on the pending (in-transaction)
table; statement numbering continues after the initial delete. -/
def runInserts (f : StorageOracle) : Nat → List CasbinRule → List CasbinRule →
    Except String (List CasbinRule)
  | _, pending, [] => .ok pending
  | i, pending, l :: rest =>
    if f.stepFails i then .error "insert failed"
    else runInserts f (i + 1) (insertLine pending l) rest

/-- `SavePolicy` on an already-flattened list of encoded lines: begin a
transaction, delete every row (`WHERE id IS NOT NULL`), insert each line
with conflict-do-nothing, commit.  Any failure before the commit leaves the
caller-visible table unchanged (rollback via the deferred `tx.Close()`);
the second component is the returned error. -/
def savePolicy (f : StorageOracle) (db : List CasbinRule) (lines : List CasbinRule) :
    List CasbinRule × Option String :=
  if f.beginFails then (db, some "start DB transaction")
  else if f.stepFails 0 then (db, some "delete failed")
  else
    match runInserts f 1 [] lines with
    | .error e => (db, some e)
    | .ok pending =>
      if f.commitFails then (db, some "commit DB transaction") else (pending, none)

/-- The lines `SavePolicy` collects from one section of the policy model
(`for ptype, ast := range model[sec] { for _, rule := range ast.Policy }`). -/
def sectionLines (h : String → String) (sec : List (String × List (List String))) :
    List CasbinRule :=
  sec.flatMap (fun pr => pr.2.map (fun rule => savePolicyLine h pr.1 rule))

/-- Effect of one `UPDATE ... WHERE <old.queryString()>` on one row: a
matching row receives the data columns of the new line (the primary key is
not among go-pg's data columns), a non-matching row is untouched. -/
def updateRow (old nw r : CasbinRule) : CasbinRule :=
  if old.matchesQuery r then
    { nw with ID := r.ID }
  else r

/-- The update loop of `updatePolicies` acting on the pending table. -/
def runUpdates (f : StorageOracle) : Nat → List CasbinRule →
    List (CasbinRule × CasbinRule) → Except String (List CasbinRule)
  | _, pending, [] => .ok pending
  | i, pending, pr :: rest =>
    if f.stepFails i then .error "update failed"
    else runUpdates f (i + 1) (pending.map (updateRow pr.1 pr.2)) rest

/-- `updatePolicies`: begin, run one `UPDATE` per old/new pair, commit;
failures roll back. -/
def updatePolicies (f : StorageOracle) (t : List CasbinRule)
    (pairs : List (CasbinRule × CasbinRule)) : List CasbinRule × Option String :=
  if f.beginFails then (t, some "begin failed")
  else
    match runUpdates f 0 t pairs with
    | .error e => (t, some e)
    | .ok pending =>
      if f.commitFails then (t, some "commit failed") else (pending, none)

/-- `buildQuery`: walk the filter values with their list index; empty values
are skipped, indices `0..5` add an equality constraint on the corresponding
slot, any other index is rejected. -/
def buildQueryAux : Nat → List String → Except String (List (Nat × String))
  | _, [] => .ok []
  | ind, v :: vs =>
    if v = "" then buildQueryAux (ind + 1) vs
    else if ind ≤ 5 then
      match buildQueryAux (ind + 1) vs with
      | .error e => .error e
      | .ok rest => .ok ((ind, v) :: rest)
    else .error "filter has more values than expected, should not exceed 6 values"

/-- `buildQuery` starting at list index 0. -/
def buildQuery (values : List String) : Except String (List (Nat × String)) :=
  buildQueryAux 0 values

/-- The rows a filtered `Select` returns: rule-type literal constraint plus
the `buildQuery` constraints. -/
def selectRows (t : List CasbinRule) (lit : String) (values : List String) :
    Except String (List CasbinRule) :=
  match buildQuery values with
  | .error e => .error e
  | .ok cs => .ok (t.filter (fun r => r.Ptype == lit && matchesConstraints cs r))

/-- The `Filter` struct: a `nil` slice (`none`) means "do not touch this
rule type", a present slice holds the positional values. -/
structure Filter where
  P : Option (List String)
  G : Option (List String)

/-- `LoadPolicy`'s decode loop: feed each row's line to the handler and stop
at the first handler error. -/
def loadPolicy {μ : Type} (handler : String → μ → Except String μ)
    (t : List CasbinRule) (m : μ) : Except String μ :=
  match t with
  | [] => .ok m
  | r :: rest =>
    match handler r.string m with
    | .error e => .error e
    | .ok m1 => loadPolicy handler rest m1

/-- The decode loop of `loadFilteredPolicy`: the handler's returned error is
discarded (`handler(line.String(), model)` with no assignment); an erroring
decode leaves the model as it was. -/
def runHandlerIgnoringErrors {μ : Type} (handler : String → μ → Except String μ)
    (lines : List CasbinRule) (m : μ) : μ :=
  lines.foldl (fun acc r =>
    match handler r.string acc with
    | .ok m1 => m1
    | .error _ => acc) m

/-- One rule-type section of `loadFilteredPolicy`: skipped entirely when the
values slice is `nil`, otherwise select the matching rows and feed them to
the handler with errors discarded. -/
def loadSection {μ : Type} (handler : String → μ → Except String μ)
    (t : List CasbinRule) (lit : String) (vals : Option (List String)) (m : μ) :
    Except String μ :=
  match vals with
  | none => .ok m
  | some values =>
    match selectRows t lit values with
    | .error e => .error e
    | .ok lines => .ok (runHandlerIgnoringErrors handler lines m)

/-- `loadFilteredPolicy`: the `p` section, then the `g` section. -/
def loadFilteredPolicy {μ : Type} (handler : String → μ → Except String μ)
    (t : List CasbinRule) (f : Filter) (m : μ) : Except String μ :=
  match loadSection handler t "p" f.P m with
  | .error e => .error e
  | .ok m1 => loadSection handler t "g" f.G m1

/-- `LoadFilteredPolicy`: a `nil` filter argument degrades to a full load,
otherwise run the filtered load. -/
def loadFilteredPolicyOp {μ : Type} (handler : String → μ → Except String μ)
    (t : List CasbinRule) (f : Option Filter) (m : μ) : Except String μ :=
  match f with
  | none => loadPolicy handler t m
  | some flt => loadFilteredPolicy handler t flt m

/-- The constraint `RemoveFilteredPolicy` places on slot `k`
(`fieldIndex <= k && fieldIndex+len(fieldValues) > k && fieldValues[k-fieldIndex] != ""`). -/
def rfpConstraint (fieldIndex : Int) (fieldValues : List String) (k : Nat) : Option String :=
  if fieldIndex ≤ (k : Int) ∧ (k : Int) < fieldIndex + (fieldValues.length : Int) then
    if fieldValues.getD ((k : Int) - fieldIndex).toNat "" = "" then none
    else some (fieldValues.getD ((k : Int) - fieldIndex).toNat "")
  else none

/-- A row matches the `RemoveFilteredPolicy` query for the given rule type,
offset and sparse values. -/
def rfpMatches (ptype : String) (fieldIndex : Int) (fieldValues : List String)
    (r : CasbinRule) : Bool :=
  r.Ptype == ptype &&
  (List.range 6).all (fun k =>
    match rfpConstraint fieldIndex fieldValues k with
    | none => true
    | some v => r.values.getD k "" == v)

/-- `RemoveFilteredPolicy`: delete every row matching the filter query. -/
def removeFilteredPolicy (ptype : String) (fieldIndex : Int) (fieldValues : List String)
    (t : List CasbinRule) : List CasbinRule :=
  t.filter (fun r => !(rfpMatches ptype fieldIndex fieldValues r))

/-- The value `UpdateFilteredPolicies` assigns to slot `k` of its filter
record (`if fieldIndex <= k && k < fieldIndex+len(fieldValues) { line.Vk =
fieldValues[k-fieldIndex] }`); slots outside the addressed range keep the
zero value. -/
def ufpSlot (fieldIndex : Int) (fieldValues : List String) (k : Nat) : String :=
  if fieldIndex ≤ (k : Int) ∧ (k : Int) < fieldIndex + (fieldValues.length : Int) then
    fieldValues.getD ((k : Int) - fieldIndex).toNat ""
  else ""

/-- The filter record `UpdateFilteredPolicies` builds from the rule type,
offset and sparse values before issuing its deletes: only slots `0..5` are
ever assigned, no value is range-checked, and the `ID` stays empty. -/
def ufpFilterLine (ptype : String) (fieldIndex : Int) (fieldValues : List String) :
    CasbinRule :=
  { ID := ""
    Ptype := ptype
    V0 := ufpSlot fieldIndex fieldValues 0
    V1 := ufpSlot fieldIndex fieldValues 1
    V2 := ufpSlot fieldIndex fieldValues 2
    V3 := ufpSlot fieldIndex fieldValues 3
    V4 := ufpSlot fieldIndex fieldValues 4
    V5 := ufpSlot fieldIndex fieldValues 5 }

/-- A line decoder that records every line it is given (a concrete observer
for load semantics). -/
def collectH : String → List String → Except String (List String) :=
  fun line m => .ok (m ++ [line])

/-- A line decoder that always reports an error. -/
def failH : String → List String → Except String (List String) :=
  fun _ _ => .error "decode error"

instance {ε α : Type} [DecidableEq ε] [DecidableEq α] : DecidableEq (Except ε α) := by
  intro x y
  cases x with
  | ok a =>
    cases y with
    | ok b =>
      exact if h : a = b then isTrue (by rw [h]) else
        isFalse (fun hc => h (by injection hc))
    | error f => exact isFalse (fun hc => Except.noConfusion hc)
  | error e =>
    cases y with
    | ok b => exact isFalse (fun hc => Except.noConfusion hc)
    | error f =>
      exact if h : e = f then isTrue (by rw [h]) else
        isFalse (fun hc => h (by injection hc))

theorem commaFree_cons {c : Char} {p : List Char} (h : commaFree (c :: p) = true) :
    c ≠ ',' ∧ commaFree p = true := by
  simp only [commaFree, List.all_cons, Bool.and_eq_true, bne_iff_ne, ne_eq] at h ⊢
  exact h

theorem splitCommaAux_flat (p : List Char) : ∀ acc, commaFree p = true →
    splitCommaAux p acc = [acc ++ p] := by
  induction p with
  | nil => intro acc _; simp [splitCommaAux]
  | cons c p ih =>
    intro acc h
    obtain ⟨hc, hp⟩ := commaFree_cons h
    simp [splitCommaAux, hc, ih (acc ++ [c]) hp]

theorem splitCommaAux_step (p : List Char) : ∀ acc t, commaFree p = true →
    splitCommaAux (p ++ ',' :: t) acc = (acc ++ p) :: splitCommaAux t [] := by
  induction p with
  | nil => intro acc t _; simp [splitCommaAux]
  | cons c p ih =>
    intro acc t h
    obtain ⟨hc, hp⟩ := commaFree_cons h
    simp [splitCommaAux, hc, ih (acc ++ [c]) t hp]

theorem splitCommaAux_join (parts : List (List Char)) : ∀ p acc, commaFree p = true →
    (∀ cs ∈ parts, commaFree cs = true) →
    splitCommaAux (p ++ commaTail parts) acc = (acc ++ p) :: parts := by
  induction parts with
  | nil =>
    intro p acc hp _
    simp [commaTail, splitCommaAux_flat p acc hp]
  | cons cs rest ih =>
    intro p acc hp hparts
    have hcs : commaFree cs = true := hparts cs (by simp)
    have hrest : ∀ x ∈ rest, commaFree x = true := fun x hx => hparts x (by simp [hx])
    have hstep := splitCommaAux_step p acc (cs ++ commaTail rest) hp
    have hrec := ih cs [] hcs hrest
    simp only [commaTail, List.nil_append] at hstep hrec ⊢
    rw [hstep, hrec]

theorem joinComma_data (s : String) (rest : List String) :
    (joinComma (s :: rest)).data = s.data ++ commaTail (rest.map String.data) := by
  induction rest generalizing s with
  | nil => simp [joinComma, commaTail]
  | cons r rest ih =>
    have : joinComma (s :: r :: rest) = s ++ "," ++ joinComma (r :: rest) := rfl
    rw [this, String.data_append, String.data_append, ih r]
    simp [commaTail]

theorem data_map_inj : ∀ (l1 l2 : List String),
    l1.map String.data = l2.map String.data → l1 = l2 := by
  intro l1
  induction l1 with
  | nil => intro l2 h; cases l2 <;> simp_all
  | cons a l1 ih =>
    intro l2 h
    cases l2 with
    | nil => simp_all
    | cons b l2 =>
      simp only [List.map_cons, List.cons.injEq] at h
      exact by rw [String.ext h.1, ih l2 h.2]

theorem policyIDData_inj {pt1 pt2 : String} {r1 r2 : List String}
    (hpt1 : commaFree pt1.data = true) (hpt2 : commaFree pt2.data = true)
    (hr1 : ∀ v ∈ r1, commaFree v.data = true) (hr2 : ∀ v ∈ r2, commaFree v.data = true)
    (heq : policyIDData pt1 r1 = policyIDData pt2 r2) : pt1 = pt2 ∧ r1 = r2 := by
  have hd : (joinComma (pt1 :: r1)).data = (joinComma (pt2 :: r2)).data := by
    have h1 : policyIDData pt1 r1 = joinComma (pt1 :: r1) := rfl
    have h2 : policyIDData pt2 r2 = joinComma (pt2 :: r2) := rfl
    rw [← h1, ← h2, heq]
  rw [joinComma_data, joinComma_data] at hd
  have hm1 : ∀ cs ∈ r1.map String.data, commaFree cs = true := by
    intro cs hcs
    obtain ⟨v, hv, rfl⟩ := List.mem_map.mp hcs
    exact hr1 v hv
  have hm2 : ∀ cs ∈ r2.map String.data, commaFree cs = true := by
    intro cs hcs
    obtain ⟨v, hv, rfl⟩ := List.mem_map.mp hcs
    exact hr2 v hv
  have hs1 := splitCommaAux_join (r1.map String.data) pt1.data [] hpt1 hm1
  have hs2 := splitCommaAux_join (r2.map String.data) pt2.data [] hpt2 hm2
  rw [hd] at hs1
  rw [hs2] at hs1
  simp only [List.nil_append, List.cons.injEq] at hs1
  exact ⟨String.ext hs1.1.symm, data_map_inj _ _ hs1.2.symm⟩

/-- C1 counterexample: a field containing the join separator `","` collides
with the same content split across two fields — the pre-hash content
strings coincide, so the identities coincide for every hash, although the
field lists differ. -/
theorem c1_counterexample :
    policyIDData "p" ["a,b"] = policyIDData "p" ["a","b"] ∧
    policyID idHash "p" ["a,b"] = policyID idHash "p" ["a","b"] ∧
    (["a,b"] : List String) ≠ ["a","b"] := by
  decide

/-- C1 (amended): the identity is deterministic — identical
`(ruleType, fields)` give the same identity for any hash — and, provided
neither the rule type nor any field contains the join separator `","`, the
pre-hash content string is injective on `(ruleType, fields)`: any
difference in the rule type or in any field (including empty versus
non-empty) changes the content string, so identities differ whenever the
hash does not collide on the two content strings.  Fields containing the
separator can collide (see the counterexample). -/
theorem c1_amended (h : String → String) (pt1 pt2 : String) (r1 r2 : List String)
    (hpt1 : commaFree pt1.data = true) (hpt2 : commaFree pt2.data = true)
    (hr1 : ∀ v ∈ r1, commaFree v.data = true) (hr2 : ∀ v ∈ r2, commaFree v.data = true) :
    (pt1 = pt2 ∧ r1 = r2 → policyID h pt1 r1 = policyID h pt2 r2) ∧
    (policyIDData pt1 r1 = policyIDData pt2 r2 ↔ pt1 = pt2 ∧ r1 = r2) := by
  refine ⟨fun he => by rw [he.1, he.2], ?_, ?_⟩
  · exact fun heq => policyIDData_inj hpt1 hpt2 hr1 hr2 heq
  · exact fun he => by rw [he.1, he.2]

/-- C1 witness: at concrete separator-free inputs the amended theorem
applies, and distinct fields give distinct pre-hash content strings. -/
theorem c1_witness : policyIDData "p" ["a","b","c"] ≠ policyIDData "p" ["a","b","d"] := by
  intro hcontra
  have happ := (c1_amended idHash "p" "p" ["a","b","c"] ["a","b","d"]
    (by decide) (by decide) (by decide) (by decide)).2.mp hcontra
  exact absurd happ.2 (by decide)

theorem includedValues_eq (vs : List String) :
    includedValues vs = dropTrailingEmpties vs := by
  induction vs with
  | nil => rfl
  | cons v vs ih =>
    cases hlast : lastNonEmptyIndex vs with
    | some i =>
      have hinc : includedValues vs = vs.take (i + 1) := by
        simp [includedValues, hlast]
      have hne : dropTrailingEmpties vs ≠ [] := by
        rw [← ih, hinc]
        cases vs with
        | nil => simp [lastNonEmptyIndex] at hlast
        | cons w ws => simp
      cases hdt : dropTrailingEmpties vs with
      | nil => exact absurd hdt hne
      | cons w ws =>
        have hLHS : includedValues (v :: vs) = v :: vs.take (i + 1) := by
          simp [includedValues, lastNonEmptyIndex, hlast]
        have hRHS : dropTrailingEmpties (v :: vs) = v :: w :: ws := by
          simp [dropTrailingEmpties, hdt]
        rw [hLHS, hRHS, ← hinc, ih, hdt]
    | none =>
      have h0 : dropTrailingEmpties vs = [] := by
        rw [← ih]
        simp [includedValues, hlast]
      by_cases hv : v = ""
      · have hLHS : includedValues (v :: vs) = [] := by
          simp [includedValues, lastNonEmptyIndex, hlast, hv]
        have hRHS : dropTrailingEmpties (v :: vs) = [] := by
          simp [dropTrailingEmpties, h0, hv]
        rw [hLHS, hRHS]
      · have hLHS : includedValues (v :: vs) = [v] := by
          simp [includedValues, lastNonEmptyIndex, hlast, hv]
        have hRHS : dropTrailingEmpties (v :: vs) = [v] := by
          simp [dropTrailingEmpties, h0, hv]
        rw [hLHS, hRHS]

theorem dropTrailing_allEmpty (vs : List String) (h : ∀ v ∈ vs, v = "") :
    dropTrailingEmpties vs = [] := by
  induction vs with
  | nil => rfl
  | cons v vs ih =>
    have hv : v = "" := h v (by simp)
    have hrest : dropTrailingEmpties vs = [] := ih (fun x hx => h x (by simp [hx]))
    simp [dropTrailingEmpties, hrest, hv]

theorem dropTrailing_subset {vs : List String} {v : String}
    (hv : v ∈ dropTrailingEmpties vs) : v ∈ vs := by
  induction vs with
  | nil => simp [dropTrailingEmpties] at hv
  | cons w ws ih =>
    cases hdt : dropTrailingEmpties ws with
    | nil =>
      rw [dropTrailingEmpties, hdt] at hv
      by_cases hw : w = ""
      · simp [hw] at hv
      · simp [hw] at hv
        simp [hv]
    | cons x xs =>
      rw [dropTrailingEmpties, hdt] at hv
      rcases List.mem_cons.mp hv with h1 | h2
      · simp [h1]
      · exact List.mem_cons_of_mem w (ih (by rw [hdt]; exact h2))

theorem dropTrailing_replicate (k : Nat) :
    dropTrailingEmpties (List.replicate k "") = [] := by
  induction k with
  | zero => rfl
  | succ k ih => simp [List.replicate, dropTrailingEmpties, ih]

theorem dropTrailing_append_replicate (l : List String) (k : Nat) :
    dropTrailingEmpties (l ++ List.replicate k "") = dropTrailingEmpties l := by
  induction l with
  | nil => simp [dropTrailing_replicate, dropTrailingEmpties]
  | cons v l ih =>
    show dropTrailingEmpties (v :: (l ++ List.replicate k "")) = dropTrailingEmpties (v :: l)
    rw [dropTrailingEmpties, dropTrailingEmpties, ih]

theorem padSix_eq (rule : List String) (hlen : rule.length ≤ 6) :
    [rule.getD 0 "", rule.getD 1 "", rule.getD 2 "", rule.getD 3 "",
     rule.getD 4 "", rule.getD 5 ""] = rule ++ List.replicate (6 - rule.length) "" := by
  rcases rule with _ | ⟨a, _ | ⟨b, _ | ⟨c, _ | ⟨d, _ | ⟨e, _ | ⟨f, _ | ⟨g, rest⟩⟩⟩⟩⟩⟩⟩
  · rfl
  · rfl
  · rfl
  · rfl
  · rfl
  · rfl
  · rfl
  · simp only [List.length_cons] at hlen
    omega

/-- C3: the record-to-line codec emits the rule type followed by exactly the
values up to the last non-empty slot, each preceded by the separator
(interior empties included, fully empty tail trimmed); when every field is
empty the line is exactly the rule type. -/
theorem c3_codec_line (r : CasbinRule) :
    r.string = r.Ptype ++ sepJoin (dropTrailingEmpties r.values) ∧
    ((∀ v ∈ r.values, v = "") → r.string = r.Ptype) := by
  constructor
  · rw [CasbinRule.string, includedValues_eq]
  · intro hall
    rw [CasbinRule.string, includedValues_eq, dropTrailing_allEmpty _ hall]
    show r.Ptype ++ "" = r.Ptype
    simp

/-- C3 witness: a record with all fields empty emits exactly its rule type. -/
theorem c3_witness : (savePolicyLine idHash "p" []).string = "p" :=
  ((c3_codec_line (savePolicyLine idHash "p" [])).2 (by decide)).trans (by decide)

theorem commaFree_cons_of {c : Char} {p : List Char} (hc : c ≠ ',')
    (hp : commaFree p = true) : commaFree (c :: p) = true := by
  simp only [commaFree, List.all_cons, Bool.and_eq_true, bne_iff_ne, ne_eq] at hp ⊢
  exact ⟨hc, hp⟩

theorem sepJoin_data (parts : List String) :
    (sepJoin parts).data = sepCharTail (parts.map String.data) := by
  induction parts with
  | nil => rfl
  | cons v vs ih =>
    have hstep : sepJoin (v :: vs) = ", " ++ v ++ sepJoin vs := rfl
    have hsep : (", " : String).data = [',', ' '] := rfl
    rw [hstep, String.data_append, String.data_append, hsep, ih]
    simp [sepCharTail]

theorem splitCommaAux_sepCharTail (parts : List (List Char)) : ∀ p acc,
    commaFree p = true → (∀ cs ∈ parts, commaFree cs = true) →
    splitCommaAux (p ++ sepCharTail parts) acc =
      (acc ++ p) :: parts.map (fun cs => ' ' :: cs) := by
  induction parts with
  | nil =>
    intro p acc hp _
    simp [sepCharTail, splitCommaAux_flat p acc hp]
  | cons cs rest ih =>
    intro p acc hp hparts
    have hcs : commaFree cs = true := hparts cs (by simp)
    have hscs : commaFree (' ' :: cs) = true := commaFree_cons_of (by decide) hcs
    have hrest : ∀ x ∈ rest, commaFree x = true := fun x hx => hparts x (by simp [hx])
    have hshape : p ++ sepCharTail (cs :: rest) =
        p ++ ',' :: ((' ' :: cs) ++ sepCharTail rest) := by
      simp [sepCharTail]
    rw [hshape, splitCommaAux_step p acc _ hp, ih (' ' :: cs) [] hscs hrest]
    simp

theorem parseLine_encode (pt : String) (parts : List String)
    (hpt : commaFree pt.data = true) (hparts : ∀ v ∈ parts, commaFree v.data = true) :
    parseLine (pt ++ sepJoin parts) = pt :: parts := by
  have hm : ∀ cs ∈ parts.map String.data, commaFree cs = true := by
    intro cs hcs
    obtain ⟨v, hv, rfl⟩ := List.mem_map.mp hcs
    exact hparts v hv
  have hdata : (pt ++ sepJoin parts).data =
      pt.data ++ sepCharTail (parts.map String.data) := by
    rw [String.data_append, sepJoin_data]
  have hsplit := splitCommaAux_sepCharTail (parts.map String.data) pt.data [] hpt hm
  rw [parseLine, hdata, hsplit]
  have hback : ∀ l : List String,
      ((l.map String.data).map (fun cs => ' ' :: cs)).map
        (fun cs => String.mk (dropOneSpace cs)) = l := by
    intro l
    induction l with
    | nil => rfl
    | cons x l ihl =>
      simp only [List.map_cons, List.cons.injEq]
      exact ⟨rfl, ihl⟩
  simp only [List.nil_append]
  rw [List.map_map]
  have := hback parts
  rw [List.map_map] at this
  rw [this]

/-- C2 counterexample: a one-entry tuple whose entry contains the codec
separator does not round-trip — the engine-side parse splits it into two
entries — although it has length at most 6 and contains no trailing
empties. -/
theorem c2_counterexample :
    roundTrip idHash "p" ["a,b"] = ["a", "b"] ∧
    roundTrip idHash "p" ["a,b"] ≠ ["a,b"] ∧
    dropTrailingEmpties ["a,b"] = ["a,b"] ∧
    (["a,b"] : List String).length ≤ 6 := by
  decide

/-- C2 (amended): for every tuple of length at most 6 whose entries do not
contain the separator character `","` (and a separator-free rule type),
encoding the tuple to a record, rendering the line and parsing it back
reproduces the tuple exactly except that trailing empty entries are
dropped; embedded empty entries are preserved. -/
theorem c2_amended (h : String → String) (pt : String) (rule : List String)
    (hlen : rule.length ≤ 6) (hpt : commaFree pt.data = true)
    (hrule : ∀ v ∈ rule, commaFree v.data = true) :
    roundTrip h pt rule = dropTrailingEmpties rule := by
  have hvals : (savePolicyLine h pt rule).values =
      rule ++ List.replicate (6 - rule.length) "" := by
    rw [← padSix_eq rule hlen]
    rfl
  have hdrop : dropTrailingEmpties (savePolicyLine h pt rule).values =
      dropTrailingEmpties rule := by
    rw [hvals, dropTrailing_append_replicate]
  have hstring : (savePolicyLine h pt rule).string =
      pt ++ sepJoin (dropTrailingEmpties rule) := by
    rw [CasbinRule.string, includedValues_eq, hdrop]
    rfl
  have hmem : ∀ v ∈ dropTrailingEmpties rule, commaFree v.data = true :=
    fun v hv => hrule v (dropTrailing_subset hv)
  rw [roundTrip, hstring, parseLine_encode pt _ hpt hmem]
  simp

/-- C2 witness: the spec's two concrete examples — an embedded empty field
is preserved, a trailing empty field is dropped. -/
theorem c2_witness :
    roundTrip idHash "p" ["alice", "", "read"] = ["alice", "", "read"] ∧
    roundTrip idHash "p" ["bob", "data1", ""] = ["bob", "data1"] := by
  constructor
  · exact (c2_amended idHash "p" ["alice", "", "read"]
      (by decide) (by decide) (by decide)).trans (by decide)
  · exact (c2_amended idHash "p" ["bob", "data1", ""]
      (by decide) (by decide) (by decide)).trans (by decide)

theorem runInserts_ok (f : StorageOracle) (lines : List CasbinRule) :
    ∀ (i : Nat) (pending out : List CasbinRule),
    runInserts f i pending lines = .ok out → out = lines.foldl insertLine pending := by
  induction lines with
  | nil =>
    intro i pending out hrun
    simp [runInserts] at hrun
    simp [hrun.symm]
  | cons l rest ih =>
    intro i pending out hrun
    rw [runInserts] at hrun
    by_cases hstep : f.stepFails i
    · simp [hstep] at hrun
    · simp only [hstep, if_false, Bool.false_eq_true] at hrun
      rw [List.foldl_cons]
      exact ih (i + 1) (insertLine pending l) out hrun

/-- C4: SavePolicy is an atomic full replace: for every failure pattern of
the storage engine, either it reports no error and the resulting table is
exactly the snapshot's lines inserted into an emptied table with
identity-based deduplication, or it reports an error and the table retains
exactly its pre-Save contents. -/
theorem c4_save_atomic (f : StorageOracle) (h : String → String) (db : List CasbinRule)
    (pSec gSec : List (String × List (List String))) :
    ((savePolicy f db (sectionLines h pSec ++ sectionLines h gSec)).2 = none ∧
     (savePolicy f db (sectionLines h pSec ++ sectionLines h gSec)).1 =
       (sectionLines h pSec ++ sectionLines h gSec).foldl insertLine []) ∨
    ((savePolicy f db (sectionLines h pSec ++ sectionLines h gSec)).2 ≠ none ∧
     (savePolicy f db (sectionLines h pSec ++ sectionLines h gSec)).1 = db) := by
  by_cases hb : f.beginFails
  · right
    simp [savePolicy, hb]
  · by_cases hd : f.stepFails 0
    · right
      simp [savePolicy, hb, hd]
    · cases hrun : runInserts f 1 [] (sectionLines h pSec ++ sectionLines h gSec) with
      | error e =>
        right
        simp [savePolicy, hb, hd, hrun]
      | ok pending =>
        by_cases hc : f.commitFails
        · right
          simp [savePolicy, hb, hd, hrun, hc]
        · left
          have hp := runInserts_ok f (sectionLines h pSec ++ sectionLines h gSec) 1 [] pending hrun
          simp [savePolicy, hb, hd, hrun, hc, hp]

theorem map_updateRow_nomatch (old nw : CasbinRule) (t : List CasbinRule)
    (hnone : ∀ r ∈ t, old.matchesQuery r = false) :
    t.map (updateRow old nw) = t := by
  induction t with
  | nil => rfl
  | cons r rest ih =>
    have h1 : old.matchesQuery r = false := hnone r (by simp)
    have h2 := ih (fun x hx => hnone x (by simp [hx]))
    simp [updateRow, h1, h2]

/-- C5 counterexample: when no stored row matches the old rule's query, the
update completes with no error (`none`) and leaves the table unchanged —
the claim expects an error to be reported. -/
theorem c5_counterexample :
    ([savePolicyLine idHash "p" ["data2_admin", "data2", "read"]].all
      (fun r => !((savePolicyLine idHash "p" ["alice", "data1", "read"]).matchesQuery r))) = true ∧
    updatePolicies allOk [savePolicyLine idHash "p" ["data2_admin", "data2", "read"]]
      [(savePolicyLine idHash "p" ["alice", "data1", "read"],
        savePolicyLine idHash "p" ["bob", "data1", "read"])] =
      ([savePolicyLine idHash "p" ["data2_admin", "data2", "read"]], none) := by
  decide

/-- C5 (amended): when no stored row matches the old rule's rule type and
field values, the update affects zero rows and completes without an error,
leaving storage unchanged — a silent no-op; errors arise only from storage
failures. -/
theorem c5_amended (h : String → String) (pt : String) (oldRule newRule : List String)
    (t : List CasbinRule)
    (hnone : ∀ r ∈ t, (savePolicyLine h pt oldRule).matchesQuery r = false) :
    updatePolicies allOk t
      [(savePolicyLine h pt oldRule, savePolicyLine h pt newRule)] = (t, none) := by
  have hmap := map_updateRow_nomatch (savePolicyLine h pt oldRule)
    (savePolicyLine h pt newRule) t hnone
  simp [updatePolicies, runUpdates, allOk, hmap]

/-- C5 witness: the amended no-op behaviour at a concrete non-matching
update. -/
theorem c5_witness :
    updatePolicies allOk [savePolicyLine idHash "p" ["x", "y", "z"]]
      [(savePolicyLine idHash "p" ["a", "b", "c"], savePolicyLine idHash "p" ["d", "e", "f"])] =
      ([savePolicyLine idHash "p" ["x", "y", "z"]], none) :=
  c5_amended idHash "p" ["a", "b", "c"] ["d", "e", "f"] _ (by decide)

theorem string_of_content {r s : CasbinRule} (h : r.content = s.content) :
    r.string = s.string := by
  simp only [CasbinRule.content, Prod.mk.injEq] at h
  rw [CasbinRule.string, CasbinRule.string, h.1, h.2]

theorem loadPolicy_collect (t : List CasbinRule) :
    ∀ m, loadPolicy collectH t m = .ok (m ++ t.map (fun r => r.string)) := by
  induction t with
  | nil => intro m; simp [loadPolicy]
  | cons r rest ih =>
    intro m
    rw [loadPolicy]
    show loadPolicy collectH rest (m ++ [r.string]) = _
    rw [ih (m ++ [r.string])]
    simp

/-- C8: insert is idempotent by identity: adding the same tuple twice gives
the same table as adding it once; starting from a table containing no row
with the tuple's identity and none with its content, the result holds
exactly one row with the tuple's content, a full load returns exactly the
old lines plus the tuple's line, and the tuple's line occurs exactly once
in it. -/
theorem c8_idempotent_insert (h : String → String) (pt : String) (rule : List String)
    (t : List CasbinRule)
    (hfresh : ∀ r ∈ t, r.ID ≠ (savePolicyLine h pt rule).ID ∧
      r.string ≠ (savePolicyLine h pt rule).string) :
    addPolicy h pt rule (addPolicy h pt rule t) = addPolicy h pt rule t ∧
    (addPolicy h pt rule (addPolicy h pt rule t)).countP
      (fun r => r.content == (savePolicyLine h pt rule).content) = 1 ∧
    loadPolicy collectH (addPolicy h pt rule (addPolicy h pt rule t)) [] =
      .ok (t.map (fun r => r.string) ++ [(savePolicyLine h pt rule).string]) ∧
    (t.map (fun r => r.string) ++ [(savePolicyLine h pt rule).string]).count
      (savePolicyLine h pt rule).string = 1 := by
  have hnot : t.any (fun r => r.ID == (savePolicyLine h pt rule).ID) = false := by
    cases hany : t.any (fun r => r.ID == (savePolicyLine h pt rule).ID) with
    | false => rfl
    | true =>
      obtain ⟨r, hr, hid⟩ := List.any_eq_true.mp hany
      exact absurd (by simpa using hid) (hfresh r hr).1
  have hadd1 : addPolicy h pt rule t = t ++ [savePolicyLine h pt rule] := by
    simp [addPolicy, insertLine, hnot]
  have hmem2 : (t ++ [savePolicyLine h pt rule]).any
      (fun r => r.ID == (savePolicyLine h pt rule).ID) = true := by
    simp
  have hadd2 : addPolicy h pt rule (t ++ [savePolicyLine h pt rule]) =
      t ++ [savePolicyLine h pt rule] := by
    simp [addPolicy, insertLine, hmem2]
  have hcount0 : t.countP
      (fun r => r.content == (savePolicyLine h pt rule).content) = 0 := by
    rw [List.countP_eq_zero]
    intro r hr
    simp only [beq_eq_false_iff_ne, ne_eq, beq_iff_eq]
    intro hcontent
    exact absurd (string_of_content hcontent) (hfresh r hr).2
  have hnotmem : (savePolicyLine h pt rule).string ∉ t.map (fun r => r.string) := by
    intro hmem
    obtain ⟨r, hr, hstr⟩ := List.mem_map.mp hmem
    exact absurd hstr (hfresh r hr).2
  refine ⟨by rw [hadd1, hadd2], ?_, ?_, ?_⟩
  · rw [hadd1, hadd2, List.countP_append, hcount0]
    simp [List.countP_cons]
  · rw [hadd1, hadd2, loadPolicy_collect]
    simp
  · rw [List.count_append]
    rw [List.count_eq_zero.mpr hnotmem]
    simp [List.count_cons]

/-- C8 witness: adding a concrete tuple twice to the empty table leaves
exactly one row with its content. -/
theorem c8_witness :
    (addPolicy idHash "p" ["alice", "data1", "read"]
       (addPolicy idHash "p" ["alice", "data1", "read"] [])).countP
      (fun r => r.content == (savePolicyLine idHash "p" ["alice", "data1", "read"]).content) = 1 :=
  (c8_idempotent_insert idHash "p" ["alice", "data1", "read"] [] (by decide)).2.1

theorem values_take_six (h : String → String) (pt : String) (rule : List String) :
    (savePolicyLine h pt rule).values = (savePolicyLine h pt (rule.take 6)).values := by
  rcases rule with _ | ⟨a, _ | ⟨b, _ | ⟨c, _ | ⟨d, _ | ⟨e, _ | ⟨f, _ | ⟨g, rest⟩⟩⟩⟩⟩⟩⟩
  · rfl
  · rfl
  · rfl
  · rfl
  · rfl
  · rfl
  · rfl
  · rfl

/-- C9 counterexample: two tuples agreeing on their first six entries whose
extra entries merely re-split the comma structure produce the same pre-hash
content string, hence the same identity for every hash, and adding both
yields one stored row — not two rows with distinct identities. -/
theorem c9_counterexample :
    (["a", "b", "c", "d", "e", "f", "x,y"] : List String).take 6 =
      (["a", "b", "c", "d", "e", "f", "x", "y"] : List String).take 6 ∧
    (["a", "b", "c", "d", "e", "f", "x,y"] : List String) ≠
      ["a", "b", "c", "d", "e", "f", "x", "y"] ∧
    policyIDData "p" ["a", "b", "c", "d", "e", "f", "x,y"] =
      policyIDData "p" ["a", "b", "c", "d", "e", "f", "x", "y"] ∧
    policyID idHash "p" ["a", "b", "c", "d", "e", "f", "x,y"] =
      policyID idHash "p" ["a", "b", "c", "d", "e", "f", "x", "y"] ∧
    (addPolicy idHash "p" ["a", "b", "c", "d", "e", "f", "x", "y"]
      (addPolicy idHash "p" ["a", "b", "c", "d", "e", "f", "x,y"] [])).length = 1 := by
  decide

/-- C9 (amended): Add accepts tuples of any length without error (the
operations are total); the record's field slots are determined by the first
six entries only, while the identity hashes the comma-join of all entries;
two tuples agreeing on their first six entries have identical visible
content, and they produce two stored rows with distinct identities exactly
when the hash separates their full content strings — which entries that
merely re-split the comma structure do not (see the counterexample). -/
theorem c9_amended :
    (∀ (h : String → String) (pt : String) (rule : List String),
       (savePolicyLine h pt rule).values = (savePolicyLine h pt (rule.take 6)).values) ∧
    (∀ (h : String → String) (pt : String) (rule : List String),
       (savePolicyLine h pt rule).ID = h (policyIDData pt rule)) ∧
    (∀ (h : String → String) (pt : String) (t1 t2 : List String),
       t1.take 6 = t2.take 6 →
       (savePolicyLine h pt t1).content = (savePolicyLine h pt t2).content) ∧
    (∀ (h : String → String) (pt : String) (t1 t2 : List String),
       h (policyIDData pt t1) ≠ h (policyIDData pt t2) →
       (savePolicyLine h pt t1).ID ≠ (savePolicyLine h pt t2).ID ∧
       (addPolicy h pt t2 (addPolicy h pt t1 [])).length = 2) := by
  refine ⟨values_take_six, fun _ _ _ => rfl, ?_, ?_⟩
  · intro h pt t1 t2 htake
    have h1 := values_take_six h pt t1
    have h2 := values_take_six h pt t2
    rw [htake] at h1
    simp only [CasbinRule.content]
    rw [h1, h2]
    rfl
  · intro h pt t1 t2 hne
    have hid : (savePolicyLine h pt t1).ID ≠ (savePolicyLine h pt t2).ID := hne
    refine ⟨hid, ?_⟩
    have hadd1 : addPolicy h pt t1 [] = [savePolicyLine h pt t1] := rfl
    have hany : [savePolicyLine h pt t1].any
        (fun r => r.ID == (savePolicyLine h pt t2).ID) = false := by
      simp only [List.any_cons, List.any_nil, Bool.or_false]
      exact beq_eq_false_iff_ne.mpr hid
    have hadd2 : addPolicy h pt t2 [savePolicyLine h pt t1] =
        [savePolicyLine h pt t1] ++ [savePolicyLine h pt t2] := by
      simp [addPolicy, insertLine, hany]
    rw [hadd1, hadd2]
    rfl

/-- C9 witness: two concrete tuples agreeing on their first six entries with
genuinely different tails give identical visible content yet two stored
rows with distinct identities. -/
theorem c9_witness :
    (savePolicyLine idHash "p" ["a", "b", "c", "d", "e", "f", "z"]).content =
      (savePolicyLine idHash "p" ["a", "b", "c", "d", "e", "f", "zz"]).content ∧
    (addPolicy idHash "p" ["a", "b", "c", "d", "e", "f", "zz"]
      (addPolicy idHash "p" ["a", "b", "c", "d", "e", "f", "z"] [])).length = 2 :=
  ⟨c9_amended.2.2.1 idHash "p" ["a", "b", "c", "d", "e", "f", "z"]
      ["a", "b", "c", "d", "e", "f", "zz"] (by decide),
   (c9_amended.2.2.2 idHash "p" ["a", "b", "c", "d", "e", "f", "z"]
      ["a", "b", "c", "d", "e", "f", "zz"] (by decide)).2⟩

theorem buildQueryAux_error_iff (values : List String) : ∀ n : Nat,
    (∃ e, buildQueryAux n values = .error e) ↔
    (∃ i, i < values.length ∧ values.getD i "" ≠ "" ∧ 5 < n + i) := by
  induction values with
  | nil =>
    intro n
    simp [buildQueryAux]
  | cons v vs ih =>
    intro n
    by_cases hv : v = ""
    · have hred : buildQueryAux n (v :: vs) = buildQueryAux (n + 1) vs := by
        simp [buildQueryAux, hv]
      rw [hred, ih (n + 1)]
      constructor
      · rintro ⟨i, hi, hne, hgt⟩
        refine ⟨i + 1, by simpa using hi, by simpa using hne, by omega⟩
      · rintro ⟨i, hi, hne, hgt⟩
        rcases i with _ | i
        · rw [List.getD_cons_zero] at hne
          exact absurd hv hne
        · refine ⟨i, by simpa using hi, by simpa using hne, by omega⟩
    · by_cases hn : n ≤ 5
      · have hred : buildQueryAux n (v :: vs) =
            match buildQueryAux (n + 1) vs with
            | .error e => .error e
            | .ok rest => .ok ((n, v) :: rest) := by
          simp [buildQueryAux, hv, hn]
        constructor
        · rintro ⟨e, he⟩
          rw [hred] at he
          cases hbq : buildQueryAux (n + 1) vs with
          | error e2 =>
            obtain ⟨i, hi, hne, hgt⟩ := (ih (n + 1)).mp ⟨e2, hbq⟩
            exact ⟨i + 1, by simpa using hi, by simpa using hne, by omega⟩
          | ok rest =>
            rw [hbq] at he
            simp at he
        · rintro ⟨i, hi, hne, hgt⟩
          rcases i with _ | i
          · omega
          · obtain ⟨e, he⟩ := (ih (n + 1)).mpr
              ⟨i, by simpa using hi, by simpa using hne, by omega⟩
            exact ⟨e, by rw [hred, he]⟩
      · have hred : buildQueryAux n (v :: vs) =
            .error "filter has more values than expected, should not exceed 6 values" := by
          simp [buildQueryAux, hv, hn]
        constructor
        · intro _
          exact ⟨0, by simp, by simpa using hv, by omega⟩
        · intro _
          exact ⟨_, hred⟩

theorem getD_take {α : Type} (l : List α) (d : α) : ∀ (n m : Nat), m < n →
    (l.take n).getD m d = l.getD m d := by
  induction l with
  | nil =>
    intro n m _
    simp
  | cons a l ih =>
    intro n m hm
    cases n with
    | zero => omega
    | succ k =>
      cases m with
      | zero => simp
      | succ j =>
        simp only [List.take_succ_cons, List.getD_cons_succ]
        exact ih k j (by omega)

theorem rfpConstraint_take (fi : Int) (vals : List String) (k : Nat) (hk : k < 6) :
    rfpConstraint fi vals k = rfpConstraint fi (vals.take ((6 - fi).toNat)) k := by
  unfold rfpConstraint
  by_cases hfi : fi ≤ (k : Int)
  · have hlen : ((vals.take ((6 - fi).toNat)).length : Int) =
        min (((6 - fi).toNat : Nat) : Int) ((vals.length : Nat) : Int) := by
      rw [List.length_take]
      push_cast
      rfl
    by_cases hlt : (k : Int) < fi + (vals.length : Int)
    · have hB : fi ≤ (k : Int) ∧
          (k : Int) < fi + ((vals.take ((6 - fi).toNat)).length : Int) := by
        refine ⟨hfi, ?_⟩
        rw [hlen]
        omega
      rw [if_pos ⟨hfi, hlt⟩, if_pos hB]
      have hg := getD_take vals "" ((6 - fi).toNat) ((k : Int) - fi).toNat (by omega)
      rw [hg]
    · have hB : ¬(fi ≤ (k : Int) ∧
          (k : Int) < fi + ((vals.take ((6 - fi).toNat)).length : Int)) := by
        intro hB0
        rw [hlen] at hB0
        omega
      rw [if_neg (fun hA => hlt hA.2), if_neg hB]
  · rw [if_neg (fun hA => hfi hA.1), if_neg (fun hA => hfi hA.1)]

theorem ufpSlot_take (fi : Int) (vals : List String) (k : Nat) (hk : k < 6) :
    ufpSlot fi vals k = ufpSlot fi (vals.take ((6 - fi).toNat)) k := by
  unfold ufpSlot
  by_cases hfi : fi ≤ (k : Int)
  · have hlen : ((vals.take ((6 - fi).toNat)).length : Int) =
        min (((6 - fi).toNat : Nat) : Int) ((vals.length : Nat) : Int) := by
      rw [List.length_take]
      push_cast
      rfl
    by_cases hlt : (k : Int) < fi + (vals.length : Int)
    · have hB : fi ≤ (k : Int) ∧
          (k : Int) < fi + ((vals.take ((6 - fi).toNat)).length : Int) := by
        refine ⟨hfi, ?_⟩
        rw [hlen]
        omega
      rw [if_pos ⟨hfi, hlt⟩, if_pos hB,
        getD_take vals "" ((6 - fi).toNat) ((k : Int) - fi).toNat (by omega)]
    · have hB : ¬(fi ≤ (k : Int) ∧
          (k : Int) < fi + ((vals.take ((6 - fi).toNat)).length : Int)) := by
        intro hB0
        rw [hlen] at hB0
        omega
      rw [if_neg (fun hA => hlt hA.2), if_neg hB]
  · rw [if_neg (fun hA => hfi hA.1), if_neg (fun hA => hfi hA.1)]

theorem ufpFilterLine_take (pt : String) (fi : Int) (vals : List String) :
    ufpFilterLine pt fi vals = ufpFilterLine pt fi (vals.take ((6 - fi).toNat)) := by
  unfold ufpFilterLine
  rw [ufpSlot_take fi vals 0 (by omega), ufpSlot_take fi vals 1 (by omega),
    ufpSlot_take fi vals 2 (by omega), ufpSlot_take fi vals 3 (by omega),
    ufpSlot_take fi vals 4 (by omega), ufpSlot_take fi vals 5 (by omega)]

theorem rfpMatches_take (pt : String) (fi : Int) (vals : List String) (r : CasbinRule) :
    rfpMatches pt fi vals r = rfpMatches pt fi (vals.take ((6 - fi).toNat)) r := by
  have hc : ∀ k : Nat, k < 6 →
      rfpConstraint fi vals k = rfpConstraint fi (vals.take ((6 - fi).toNat)) k :=
    fun k hk => rfpConstraint_take fi vals k hk
  unfold rfpMatches
  have hr : List.range 6 = [0, 1, 2, 3, 4, 5] := rfl
  rw [hr]
  simp only [List.all_cons, List.all_nil]
  rw [hc 0 (by omega), hc 1 (by omega), hc 2 (by omega), hc 3 (by omega),
    hc 4 (by omega), hc 5 (by omega)]

/-- C6 counterexample: a filter value list addressing slot 6 with an empty
out-of-range value is accepted (the empty value is skipped before the range
check), a filtered load with it succeeds, the filtered remove path issues
its delete ignoring an out-of-range value entirely instead of signalling an
error, and the filtered update path builds its filter record from seven
values without error, identically to the six-value filter. -/
theorem c6_counterexample :
    buildQuery ["", "", "", "", "", "", ""] = .ok [] ∧
    loadFilteredPolicy collectH [savePolicyLine idHash "p" ["alice", "data1", "read"]]
      ⟨some ["", "", "", "", "", "", ""], none⟩ [] = .ok ["p, alice, data1, read"] ∧
    removeFilteredPolicy "p" 0 ["", "", "", "", "", "", "x"]
      [savePolicyLine idHash "p" ["alice", "data1", "read"]] = [] ∧
    ufpFilterLine "p" 0 ["", "", "", "", "", "", "x"] =
      ufpFilterLine "p" 0 ["", "", "", "", "", ""] := by
  decide

/-- C6 (amended): only the filtered-load path range-checks the filter
values, and it signals an error exactly when some value at a list index
beyond 5 is non-empty — empty values are skipped before the range check;
the filtered-remove path and the filtered-update path perform no such check
and behave exactly as if the values beyond slot 5 were absent. -/
theorem c6_amended :
    (∀ values : List String,
       (∃ e, buildQuery values = .error e) ↔
       (∃ i, i < values.length ∧ values.getD i "" ≠ "" ∧ 5 < i)) ∧
    (∀ (pt : String) (fieldIndex : Int) (fieldValues : List String) (t : List CasbinRule),
       removeFilteredPolicy pt fieldIndex fieldValues t =
       removeFilteredPolicy pt fieldIndex (fieldValues.take ((6 - fieldIndex).toNat)) t) ∧
    (∀ (pt : String) (fieldIndex : Int) (fieldValues : List String),
       ufpFilterLine pt fieldIndex fieldValues =
       ufpFilterLine pt fieldIndex (fieldValues.take ((6 - fieldIndex).toNat))) := by
  refine ⟨?_, ?_, ?_⟩
  · intro values
    have h0 := buildQueryAux_error_iff values 0
    simpa using h0
  · intro pt fi vals t
    unfold removeFilteredPolicy
    apply List.filter_congr
    intro r _
    rw [rfpMatches_take]
  · intro pt fi vals
    exact ufpFilterLine_take pt fi vals

theorem runHandlerIgnore_collect (lines : List CasbinRule) : ∀ m : List String,
    runHandlerIgnoringErrors collectH lines m = m ++ lines.map (fun r => r.string) := by
  induction lines with
  | nil =>
    intro m
    simp [runHandlerIgnoringErrors]
  | cons r rest ih =>
    intro m
    show runHandlerIgnoringErrors collectH rest (m ++ [r.string]) = _
    rw [ih (m ++ [r.string])]
    simp

theorem buildQueryAux_allEmpty (vals : List String) : ∀ n, (∀ v ∈ vals, v = "") →
    buildQueryAux n vals = .ok [] := by
  induction vals with
  | nil =>
    intro n _
    rfl
  | cons v vs ih =>
    intro n hall
    have hv : v = "" := hall v (by simp)
    have hred : buildQueryAux n (v :: vs) = buildQueryAux (n + 1) vs := by
      simp [buildQueryAux, hv]
    rw [hred]
    exact ih (n + 1) (fun x hx => hall x (by simp [hx]))

theorem buildQueryAux_ok_sem (values : List String) : ∀ (n : Nat) (cs : List (Nat × String)),
    buildQueryAux n values = .ok cs → ∀ r : CasbinRule,
    (matchesConstraints cs r = true ↔
     ∀ i, i < values.length → values.getD i "" ≠ "" →
       r.values.getD (n + i) "" = values.getD i "") := by
  induction values with
  | nil =>
    intro n cs hok r
    have hcs : cs = [] := by
      simpa [buildQueryAux] using hok.symm
    subst hcs
    simp [matchesConstraints]
  | cons v vs ih =>
    intro n cs hok r
    by_cases hv : v = ""
    · have hred : buildQueryAux n (v :: vs) = buildQueryAux (n + 1) vs := by
        simp [buildQueryAux, hv]
      rw [hred] at hok
      rw [ih (n + 1) cs hok r]
      constructor
      · intro hall i hi hne
        rcases i with _ | i
        · rw [List.getD_cons_zero] at hne
          exact absurd hv hne
        · have hx := hall i (by simpa using hi) (by simpa using hne)
          rw [show n + (i + 1) = n + 1 + i from by omega]
          simpa using hx
      · intro hall i hi hne
        have hx := hall (i + 1) (by simpa using hi) (by simpa using hne)
        rw [show n + 1 + i = n + (i + 1) from by omega]
        simpa using hx
    · by_cases hn : n ≤ 5
      · have hred : buildQueryAux n (v :: vs) =
            match buildQueryAux (n + 1) vs with
            | .error e => .error e
            | .ok rest => .ok ((n, v) :: rest) := by
          simp [buildQueryAux, hv, hn]
        rw [hred] at hok
        cases hbq : buildQueryAux (n + 1) vs with
        | error e =>
          rw [hbq] at hok
          simp at hok
        | ok rest =>
          rw [hbq] at hok
          have hcs : cs = (n, v) :: rest := by
            simpa using hok.symm
          subst hcs
          have hx := ih (n + 1) rest hbq r
          constructor
          · intro hall i hi hne
            have h1 : (r.values.getD n "" == v) = true ∧ matchesConstraints rest r = true := by
              simpa [matchesConstraints] using hall
            rcases i with _ | i
            · simpa using beq_iff_eq.mp h1.1
            · have := (hx.mp h1.2) i (by simpa using hi) (by simpa using hne)
              rw [show n + (i + 1) = n + 1 + i from by omega]
              simpa using this
          · intro hall
            have h0 : r.values.getD n "" = v := by
              have := hall 0 (by simp) (by simpa using hv)
              simpa using this
            have hrest : matchesConstraints rest r = true := by
              refine hx.mpr (fun i hi hne => ?_)
              have := hall (i + 1) (by simpa using hi) (by simpa using hne)
              rw [show n + 1 + i = n + (i + 1) from by omega]
              simpa using this
            have hb : (r.values.getD n "" == v) = true := beq_iff_eq.mpr h0
            simp only [matchesConstraints, List.all_cons, Bool.and_eq_true]
            exact ⟨hb, hrest⟩
      · have hred : buildQueryAux n (v :: vs) =
            .error "filter has more values than expected, should not exceed 6 values" := by
          simp [buildQueryAux, hv, hn]
        rw [hred] at hok
        simp at hok

/-- C7: filter matching semantics of the filtered load: with a present
value list, each non-empty value at list position `i` constrains field slot
`i` by equality and each empty value constrains nothing; an entirely-empty
value list matches every row of the rule type; an absent (`nil`) values
array leaves that rule type untouched (only the other section is loaded);
a `nil` filter argument degrades to a full load. -/
theorem c7_filter_semantics :
    (∀ (t : List CasbinRule) (pv : List String) (cs : List (Nat × String)),
       buildQuery pv = .ok cs →
       loadFilteredPolicy collectH t ⟨some pv, none⟩ [] =
         .ok ((t.filter (fun r => r.Ptype == "p" && matchesConstraints cs r)).map
           (fun r => r.string)) ∧
       (∀ r : CasbinRule, (r.Ptype == "p" && matchesConstraints cs r) = true ↔
         (r.Ptype = "p" ∧ ∀ i, i < pv.length → pv.getD i "" ≠ "" →
            r.values.getD i "" = pv.getD i ""))) ∧
    (∀ (t : List CasbinRule) (pv : List String), (∀ v ∈ pv, v = "") →
       loadFilteredPolicy collectH t ⟨some pv, none⟩ [] =
         .ok ((t.filter (fun r => r.Ptype == "p")).map (fun r => r.string))) ∧
    (∀ (t : List CasbinRule) (gv : List String) (cs : List (Nat × String)),
       buildQuery gv = .ok cs →
       loadFilteredPolicy collectH t ⟨none, some gv⟩ [] =
         .ok ((t.filter (fun r => r.Ptype == "g" && matchesConstraints cs r)).map
           (fun r => r.string))) ∧
    (∀ (μ : Type) (handler : String → μ → Except String μ)
       (t : List CasbinRule) (m : μ),
       loadFilteredPolicyOp handler t none m = loadPolicy handler t m) := by
  refine ⟨?_, ?_, ?_, ?_⟩
  · intro t pv cs hbq
    constructor
    · have hsel : selectRows t "p" pv =
          .ok (t.filter (fun r => r.Ptype == "p" && matchesConstraints cs r)) := by
        simp [selectRows, hbq]
      simp [loadFilteredPolicy, loadSection, hsel, runHandlerIgnore_collect]
    · intro r
      have hsem := buildQueryAux_ok_sem pv 0 cs hbq r
      constructor
      · intro hand
        have h1 : (r.Ptype == "p") = true ∧ matchesConstraints cs r = true := by
          simpa using hand
        refine ⟨by simpa using h1.1, fun i hi hne => ?_⟩
        have := (hsem.mp h1.2) i hi hne
        simpa using this
      · intro hand
        have h2 : matchesConstraints cs r = true := by
          refine hsem.mpr (fun i hi hne => ?_)
          have := hand.2 i hi hne
          simpa using this
        simp [hand.1, h2]
  · intro t pv hall
    have hbq : buildQuery pv = .ok [] := buildQueryAux_allEmpty pv 0 hall
    have hsel : selectRows t "p" pv =
        .ok (t.filter (fun r => r.Ptype == "p" && matchesConstraints [] r)) := by
      simp [selectRows, hbq]
    simp [loadFilteredPolicy, loadSection, hsel, runHandlerIgnore_collect,
      matchesConstraints]
  · intro t gv cs hbq
    have hsel : selectRows t "g" gv =
        .ok (t.filter (fun r => r.Ptype == "g" && matchesConstraints cs r)) := by
      simp [selectRows, hbq]
    simp [loadFilteredPolicy, loadSection, hsel, runHandlerIgnore_collect]
  · intro μ handler t m
    rfl

/-- C7 witness: the spec's own example — permission rules filtered with
values `["", "", "read"]` load exactly the two `read` rules. -/
theorem c7_witness :
    loadFilteredPolicy collectH
      [savePolicyLine idHash "p" ["alice", "data1", "read"],
       savePolicyLine idHash "p" ["bob", "data2", "write"],
       savePolicyLine idHash "p" ["data2_admin", "data2", "read"],
       savePolicyLine idHash "p" ["data2_admin", "data2", "write"]]
      ⟨some ["", "", "read"], none⟩ [] =
    .ok ["p, alice, data1, read", "p, data2_admin, data2, read"] :=
  ((c7_filter_semantics.1 _ ["", "", "read"] [(2, "read")] (by decide)).1).trans (by decide)

/-- C10: the filtered load discards the line decoder's returned error, so
whenever the filter values themselves are accepted it succeeds for every
decoder; the full load returns the decoder's error as soon as a row's line
fails to decode. -/
theorem c10_decode_error_paths :
    (∀ (μ : Type) (handler : String → μ → Except String μ) (t : List CasbinRule)
       (pv gv : List String) (m : μ) (csP csG : List (Nat × String)),
       buildQuery pv = .ok csP → buildQuery gv = .ok csG →
       ∃ m1, loadFilteredPolicy handler t ⟨some pv, some gv⟩ m = .ok m1) ∧
    (∀ (μ : Type) (handler : String → μ → Except String μ) (r : CasbinRule)
       (rest : List CasbinRule) (m : μ) (e : String),
       handler r.string m = .error e → loadPolicy handler (r :: rest) m = .error e) := by
  constructor
  · intro μ handler t pv gv m csP csG hbp hbg
    have hselP : selectRows t "p" pv =
        .ok (t.filter (fun r => r.Ptype == "p" && matchesConstraints csP r)) := by
      simp [selectRows, hbp]
    have hselG : selectRows t "g" gv =
        .ok (t.filter (fun r => r.Ptype == "g" && matchesConstraints csG r)) := by
      simp [selectRows, hbg]
    refine ⟨runHandlerIgnoringErrors handler
      (t.filter (fun r => r.Ptype == "g" && matchesConstraints csG r))
      (runHandlerIgnoringErrors handler
        (t.filter (fun r => r.Ptype == "p" && matchesConstraints csP r)) m), ?_⟩
    simp [loadFilteredPolicy, loadSection, hselP, hselG]
  · intro μ handler r rest m e he
    simp [loadPolicy, he]

/-- C10 witness: with a decoder that always errors, a filtered load still
succeeds while the full load fails with the decoder's error. -/
theorem c10_witness :
    (∃ m1, loadFilteredPolicy failH [savePolicyLine idHash "p" ["a"]]
       ⟨some [], some []⟩ ([] : List String) = .ok m1) ∧
    loadPolicy failH [savePolicyLine idHash "p" ["a"]] ([] : List String) =
      .error "decode error" :=
  ⟨c10_decode_error_paths.1 (List String) failH [savePolicyLine idHash "p" ["a"]]
      [] [] [] [] [] (by decide) (by decide),
   c10_decode_error_paths.2 (List String) failH (savePolicyLine idHash "p" ["a"])
      [] [] "decode error" rfl⟩

end PgAdapter
